import Mathlib

/-!
# Verification of the burnout-twin persona state reducer

Shallow embedding of the state-bearing core of the repository:

* `PersonaManager.update_from_events` and `PersonaManager.push_persona`
  (src/persona_manager.py), including the `_find_json_substring` extractor;
* `calculate_burnout_score_locally` (src/burnout_scanner.py).

Python values flowing through the reducer are modelled by the inductive
`JValue` (JSON numbers are modelled as integers: the proposal contract is
integer-valued and no fractional number reaches the merge in the fragment
verified here).  Stateful code is modelled by explicit state passing; a
Python exception escaping to the enclosing `try` is modelled by the
`Except`/abort side of the corresponding Lean function.  Library calls that
are outside the repository (`json.loads`, `int()`, `str()`,
`datetime.fromisoformat`) are modelled by executable Lean functions faithful
to their documented behaviour on the fragment exercised by the program.
-/

/-! ## Definitions (embedding of the source) -/

/-- A JSON-like Python value (dict / list / str / int / bool / None). -/
inductive JValue where
  | jnull : JValue
  | jbool (b : Bool) : JValue
  | jint (n : Int) : JValue
  | jstr (s : String) : JValue
  | jarr (xs : List JValue) : JValue
  | jobj (fields : List (String × JValue)) : JValue
deriving Repr, Inhabited

namespace JValue

/-- `d.get(k)`: Python dict lookup, `None` when the key is absent.  Objects
built by the JSON parser have unique keys (duplicates collapse, last value
wins), so taking the first matching binding is faithful. -/
def jget : List (String × JValue) → String → JValue
  | [], _ => jnull
  | p :: rest, k => if p.1 == k then p.2 else jget rest k

end JValue

/-- Python `s.strip()` / the whitespace trim used by the scanners, over the
character list (modelled directly so that it reduces by computation). -/
def charTrim (cs : List Char) : List Char :=
  ((cs.dropWhile Char.isWhitespace).reverse.dropWhile Char.isWhitespace).reverse

/-- Models Python `int(s)` on a string: strip surrounding whitespace, an
optional sign, then a non-empty run of decimal digits (digit-group
underscores, unused by this program, are not modelled).  `none` models the
`ValueError` raised on any other string. -/
def pyIntOfString (s : String) : Option Int :=
  let t := charTrim s.toList
  let (sign, digits) :=
    match t with
    | '-' :: rest => ((-1 : Int), rest)
    | '+' :: rest => ((1 : Int), rest)
    | rest => ((1 : Int), rest)
  if digits.isEmpty || !digits.all Char.isDigit then
    none
  else
    some (sign * (digits.foldl (fun acc c => acc * 10 + (c.toNat - 48)) (0 : Nat) : Nat))

/-- Models Python `int(v)` on a decoded JSON value: identity on integers,
`True`/`False` become `1`/`0`, numeric strings parse, everything else raises
(`none`). -/
def pyInt : JValue → Option Int
  | .jint n => some n
  | .jbool b => some (if b then 1 else 0)
  | .jstr s => pyIntOfString s
  | _ => none

mutual

/-- Python `repr` of a decoded JSON value (string escaping inside nested
containers is not reproduced; no claim exercises it).  The two list helpers
render the comma-separated element and `key: value` member lists. -/
def pyRepr : JValue → String
  | .jnull => "None"
  | .jbool b => if b then "True" else "False"
  | .jint n => toString n
  | .jstr s => "\x27" ++ s ++ "\x27"
  | .jarr xs => "[" ++ String.intercalate ", " (pyReprList xs) ++ "]"
  | .jobj fs => "\x7b" ++ String.intercalate ", " (pyReprFields fs) ++ "\x7d"

def pyReprList : List JValue → List String
  | [] => []
  | x :: rest => pyRepr x :: pyReprList rest

def pyReprFields : List (String × JValue) → List String
  | [] => []
  | (k, v) :: rest => ("\x27" ++ k ++ "\x27: " ++ pyRepr v) :: pyReprFields rest

end

/-- Models Python `str(v)` on a decoded JSON value. -/
def pyStr : JValue → String
  | .jstr s => s
  | v => pyRepr v

/-- `max(0, min(100, n))`: the clamp applied to every vitals write. -/
def clamp (n : Int) : Int := max 0 (min 100 n)

/-- The persona state fields mutated by `update_from_events`
(`self._state["vitals"]`, `self._state["memory"]`,
`self._state["version"]`); vitals is a Python dict modelled as an
association list in insertion order. -/
structure PMState where
  vitals : List (String × Int)
  memory : List String
  version : Nat
deriving Repr, DecidableEq

/-- The state installed by `PersonaManager.__init__`. -/
def initState : PMState :=
  { vitals := [("energy", 100), ("resilience", 100), ("social", 100)],
    memory := [], version := 0 }

/-- `k in vitals`. -/
def hasKey (l : List (String × Int)) (k : String) : Bool :=
  l.any (fun p => p.1 == k)

/-- `vitals[k]` (callers guard with `k in vitals`; 0 when absent). -/
def getVal : List (String × Int) → String → Int
  | [], _ => 0
  | p :: rest, k => if p.1 == k then p.2 else getVal rest k

/-- `vitals[k] = v` for an existing key: in-place dict update, position
preserved. -/
def setVal (l : List (String × Int)) (k : String) (v : Int) : List (String × Int) :=
  l.map (fun p => if p.1 == k then (p.1, v) else p)

/-- The `new_stats` loop (persona_manager.py lines 110-113):
`if k in vitals: vitals[k] = max(0, min(100, int(v)))`.  `int(v)` raising
escapes the loop: the third component reports the abort, with the first two
holding the mutations already applied. -/
def applyNewStats : List (String × JValue) → List (String × Int) → Bool →
    List (String × Int) × Bool × Bool
  | [], vitals, changed => (vitals, changed, false)
  | (k, v) :: rest, vitals, changed =>
    if hasKey vitals k then
      match pyInt v with
      | some n => applyNewStats rest (setVal vitals k (clamp n)) true
      | none => (vitals, changed, true)
    else applyNewStats rest vitals changed

/-- The `adjustments` loop (lines 116-122): the per-entry `try/except:
continue` means a value `int()` cannot convert is skipped, never aborting. -/
def applyAdjustments : List (String × JValue) → List (String × Int) → Bool →
    List (String × Int) × Bool
  | [], vitals, changed => (vitals, changed)
  | (k, d) :: rest, vitals, changed =>
    if hasKey vitals k then
      match pyInt d with
      | some n =>
          applyAdjustments rest (setVal vitals k (clamp (getVal vitals k + n))) true
      | none => applyAdjustments rest vitals changed
    else applyAdjustments rest vitals changed

/-- `for m in (parsed.get("memory_additions") or []): ... str(m)`
(lines 125-130).  Falsy values (`None`, `0`, `False`, empty containers,
empty string) iterate as `[]`; a string iterates character by character; a
dict iterates over its keys; a truthy non-iterable (`int`, `True`) raises
`TypeError` (`none`). -/
def memElems : JValue → Option (List String)
  | .jnull => some []
  | .jbool b => if b then none else some []
  | .jint n => if n == 0 then some [] else none
  | .jstr s => some (s.toList.map (fun c => String.mk [c]))
  | .jarr xs => some (xs.map pyStr)
  | .jobj fs => some (fs.map (fun p => p.1))

/-- Lines 109-113: the `new_stats` stage runs only when
`isinstance(parsed.get("new_stats"), dict)`. -/
def nsStage (fields : List (String × JValue)) (vitals : List (String × Int)) :
    List (String × Int) × Bool × Bool :=
  match JValue.jget fields "new_stats" with
  | .jobj items => applyNewStats items vitals false
  | _ => (vitals, false, false)

/-- Lines 115-122: the `adjustments` stage runs only when
`isinstance(parsed.get("adjustments"), dict)`. -/
def adjStage (fields : List (String × JValue)) (vitals : List (String × Int))
    (changed : Bool) : List (String × Int) × Bool :=
  match JValue.jget fields "adjustments" with
  | .jobj items => applyAdjustments items vitals changed
  | _ => (vitals, changed)

/-- The `new_stats` stage performs at least one vitals assignment: some
entry names an existing channel (on a run that does not abort, every such
entry is actually written). -/
def nsWrites (fields : List (String × JValue))
    (v : List (String × Int)) : Bool :=
  match JValue.jget fields "new_stats" with
  | .jobj items => items.any (fun p => hasKey v p.1)
  | _ => false

/-- The `adjustments` stage performs at least one vitals assignment: some
entry names an existing channel and carries a value `int()` accepts. -/
def adjWrites (fields : List (String × JValue))
    (v : List (String × Int)) : Bool :=
  match JValue.jget fields "adjustments" with
  | .jobj items => items.any (fun p => hasKey v p.1 && (pyInt p.2).isSome)
  | _ => false

/-- The memory loop performs at least one insertion. -/
def memWrites (fields : List (String × JValue)) : Bool :=
  match memElems (JValue.jget fields "memory_additions") with
  | some adds => !adds.isEmpty
  | none => false

/-- The merge performs at least one vitals assignment or memory insertion —
the exact condition under which the code raises its `changed` flag (an
assignment counts even when it rewrites a channel to its current value). -/
def performsWrite (fields : List (String × JValue))
    (v : List (String × Int)) : Bool :=
  nsWrites fields v || adjWrites fields v || memWrites fields

/-- The merge section of `update_from_events` (lines 105-133), given the
parsed proposal.  `Except.error` models a Python exception escaping to the
outer handler: the carried state holds whatever mutations were already
applied in place (the version bump on lines 132-133 is then never reached).
A non-dict `parsed` raises `AttributeError` at `parsed.get` before any
mutation. -/
def mergeProposal (parsed : JValue) (st : PMState) : Except PMState PMState :=
  match parsed with
  | .jobj fields =>
    let r1 := nsStage fields st.vitals
    if r1.2.2 then
      .error { st with vitals := r1.1 }
    else
      let r2 := adjStage fields r1.1 r1.2.1
      match memElems (JValue.jget fields "memory_additions") with
      | none => .error { st with vitals := r2.1 }
      | some adds =>
          let changed := r2.2 || !adds.isEmpty
          .ok { vitals := r2.1,
                memory := adds.reverse ++ st.memory,
                version := if changed then st.version + 1 else st.version }
  | _ => .error st

def lbrace : Char := Char.ofNat 123

def rbrace : Char := Char.ofNat 125

def isOpenB (c : Char) : Bool := c == lbrace || c == '['

def isCloseB (c : Char) : Bool := c == rbrace || c == ']'

/-- The scanning loop (lines 74-85) started at the first bracket: `depth` is
the stack size (only its size is ever consulted), `acc` the characters of
the candidate substring in reverse.  A closer at depth 0 returns `None`; a
closer at depth 1 returns the substring through that closer. -/
def takeBalanced : List Char → Nat → List Char → Option (List Char)
  | [], _, _ => none
  | c :: rest, depth, acc =>
    if isOpenB c then takeBalanced rest (depth + 1) (c :: acc)
    else if isCloseB c then
      match depth with
      | 0 => none
      | 1 => some (c :: acc).reverse
      | d + 2 => takeBalanced rest (d + 1) (c :: acc)
    else takeBalanced rest depth (c :: acc)

/-- `_find_json_substring`: strip, locate the first `\x7b` or `[`, then scan
bracket depth until it returns to zero; `none` when the text is empty, has
no opening bracket, or the depth never returns to zero. -/
def findJsonSubstring (s : String) : Option String :=
  let t := charTrim s.toList
  let rest := t.dropWhile (fun c => !isOpenB c)
  match rest with
  | [] => none
  | _ => (takeBalanced rest 0 []).map (fun cs => String.mk cs)

def jsonWsChar (c : Char) : Bool :=
  c == ' ' || c == '\t' || c == '\n' || c == '\r'

def skipWs (cs : List Char) : List Char := cs.dropWhile jsonWsChar

def hexVal (c : Char) : Option Nat :=
  if c.isDigit then some (c.toNat - 48)
  else if 'a' ≤ c && c ≤ 'f' then some (c.toNat - 87)
  else if 'A' ≤ c && c ≤ 'F' then some (c.toNat - 55)
  else none

/-- Body of a JSON string after the opening quote: returns the decoded
characters and the remainder after the closing quote (fuel-bounded; at
least one character is consumed per step, so the callers\' fuel of
`length + 1` always suffices). -/
def parseStringChars : Nat → List Char → List Char → Option (List Char × List Char)
  | 0, _, _ => none
  | _, [], _ => none
  | fuel + 1, c :: rest, acc =>
    if c == '"' then some (acc.reverse, rest)
    else if c == '\\' then
      match rest with
      | [] => none
      | e :: rest2 =>
        if e == '"' then parseStringChars fuel rest2 ('"' :: acc)
        else if e == '\\' then parseStringChars fuel rest2 ('\\' :: acc)
        else if e == '/' then parseStringChars fuel rest2 ('/' :: acc)
        else if e == 'b' then parseStringChars fuel rest2 (Char.ofNat 8 :: acc)
        else if e == 'f' then parseStringChars fuel rest2 (Char.ofNat 12 :: acc)
        else if e == 'n' then parseStringChars fuel rest2 ('\n' :: acc)
        else if e == 'r' then parseStringChars fuel rest2 (Char.ofNat 13 :: acc)
        else if e == 't' then parseStringChars fuel rest2 ('\t' :: acc)
        else if e == 'u' then
          match rest2 with
          | h1 :: h2 :: h3 :: h4 :: rest3 =>
            match hexVal h1, hexVal h2, hexVal h3, hexVal h4 with
            | some a, some b, some c2, some d =>
                parseStringChars fuel rest3
                  (Char.ofNat (((a * 16 + b) * 16 + c2) * 16 + d) :: acc)
            | _, _, _, _ => none
          | _ => none
        else none
    else if c.toNat < 32 then none
    else parseStringChars fuel rest (c :: acc)

/-- JSON number (integer fragment): optional minus, digits with no leading
zero; a following `.`, `e` or `E` (a float) fails the parse. -/
def parseNumber (cs : List Char) : Option (Int × List Char) :=
  let (neg, cs1) :=
    match cs with
    | '-' :: r => (true, r)
    | r => (false, r)
  let digits := cs1.takeWhile Char.isDigit
  let rest := cs1.dropWhile Char.isDigit
  if digits.isEmpty then none
  else if digits.length > 1 && digits.head? == some '0' then none
  else
    match rest with
    | c :: _ =>
      if c == '.' || c == 'e' || c == 'E' then none
      else
        let n : Nat := digits.foldl (fun acc c => acc * 10 + (c.toNat - 48)) 0
        some (if neg then -(n : Int) else (n : Int), rest)
    | [] =>
        let n : Nat := digits.foldl (fun acc c => acc * 10 + (c.toNat - 48)) 0
        some (if neg then -(n : Int) else (n : Int), rest)

/-- Python dict construction from parsed JSON object members: first
occurrence fixes the position, the last duplicate value wins.  Fuel-bounded
(each step strictly shortens the list, so `l.length` fuel always
suffices). -/
def dictifyAux : Nat → List (String × JValue) → List (String × JValue)
  | 0, _ => []
  | _, [] => []
  | fuel + 1, (k, v) :: rest =>
    let v' :=
      match (rest.filter (fun p => p.1 == k)).getLast? with
      | some p => p.2
      | none => v
    (k, v') :: dictifyAux fuel (rest.filter (fun p => p.1 != k))

def dictify (l : List (String × JValue)) : List (String × JValue) :=
  dictifyAux l.length l

mutual

/-- Strict recursive-descent JSON value parser (fuel-bounded; the fuel only
bounds nesting depth and `jsonParse` supplies enough for any input). -/
def parseJValue : Nat → List Char → Option (JValue × List Char)
  | 0, _ => none
  | fuel + 1, cs =>
    match skipWs cs with
    | [] => none
    | c :: rest =>
      if c == lbrace then
        match skipWs rest with
        | c2 :: rest2 =>
          if c2 == rbrace then some (.jobj [], rest2)
          else
            match parseMembers fuel (c2 :: rest2) [] with
            | some (fs, rest3) => some (.jobj fs, rest3)
            | none => none
        | [] => none
      else if c == '[' then
        match skipWs rest with
        | c2 :: rest2 =>
          if c2 == ']' then some (.jarr [], rest2)
          else
            match parseItems fuel (c2 :: rest2) [] with
            | some (xs, rest3) => some (.jarr xs, rest3)
            | none => none
        | [] => none
      else if c == '"' then
        match parseStringChars (rest.length + 1) rest [] with
        | some (chars, rest2) => some (.jstr (String.mk chars), rest2)
        | none => none
      else
        match c :: rest with
        | 'n' :: 'u' :: 'l' :: 'l' :: rest2 => some (.jnull, rest2)
        | 't' :: 'r' :: 'u' :: 'e' :: rest2 => some (.jbool true, rest2)
        | 'f' :: 'a' :: 'l' :: 's' :: 'e' :: rest2 => some (.jbool false, rest2)
        | cs2 =>
          match parseNumber cs2 with
          | some (n, rest2) => some (.jint n, rest2)
          | none => none

/-- Object members `"key": value (, ...)* \x7d`. -/
def parseMembers : Nat → List Char → List (String × JValue) →
    Option (List (String × JValue) × List Char)
  | 0, _, _ => none
  | fuel + 1, cs, acc =>
    match skipWs cs with
    | '"' :: rest =>
      match parseStringChars (rest.length + 1) rest [] with
      | some (kchars, rest2) =>
        match skipWs rest2 with
        | ':' :: rest3 =>
          match parseJValue fuel rest3 with
          | some (v, rest4) =>
            let acc' := (String.mk kchars, v) :: acc
            match skipWs rest4 with
            | ',' :: rest5 => parseMembers fuel rest5 acc'
            | c :: rest5 =>
                if c == rbrace then some (acc'.reverse, rest5) else none
            | [] => none
          | none => none
        | _ => none
      | none => none
    | _ => none

/-- Array items `value (, ...)* ]`. -/
def parseItems : Nat → List Char → List JValue →
    Option (List JValue × List Char)
  | 0, _, _ => none
  | fuel + 1, cs, acc =>
    match parseJValue fuel cs with
    | some (v, rest) =>
      let acc' := v :: acc
      match skipWs rest with
      | ',' :: rest2 => parseItems fuel rest2 acc'
      | ']' :: rest2 => some (acc'.reverse, rest2)
      | _ => none
    | none => none

end

/-- Models `json.loads`: parse one value, allow surrounding whitespace,
reject trailing input; JSON objects become dicts via `dictify`. -/
def jsonParse (s : String) : Option JValue :=
  match parseJValue (s.length + 1) s.toList with
  | some (.jobj fs, rest) =>
      if (skipWs rest).isEmpty then some (.jobj (dictify fs)) else none
  | some (v, rest) => if (skipWs rest).isEmpty then some v else none
  | none => none

/-- The `parsed` value computed from a string `raw`: try `json.loads` on the
first balanced substring; when there is no substring or it fails to parse,
try `json.loads` on the whole text; when that also fails, the empty dict. -/
def parseRaw (raw : String) : JValue :=
  let fallback :=
    match jsonParse raw with
    | some v => v
    | none => .jobj []
  match findJsonSubstring raw with
  | some sub =>
    match jsonParse sub with
    | some v => v
    | none => fallback
  | none => fallback

/-- The value bound to `raw` on line 60 (`result.output` when truthy, else
`str(result)`): a string, a dict, a list, or some other Python object. -/
inductive RawOutput where
  | rstr (s : String) : RawOutput
  | rdict (fields : List (String × JValue)) : RawOutput
  | rlist (xs : List JValue) : RawOutput
  | rother : RawOutput
deriving Repr, Inhabited

/-- Lines 87-102: a dict or list is used as-is; a string goes through the
extraction pipeline; any other object makes `json.loads(raw)` raise
`TypeError`, leaving the empty dict. -/
def parsedOfRaw : RawOutput → JValue
  | .rstr s => parseRaw s
  | .rdict fs => .jobj fs
  | .rlist xs => .jarr xs
  | .rother => .jobj []

/-- `\x7b"error": str(e)\x7d`, the value returned by the outer exception
handler (line 148). -/
def jerr (msg : String) : JValue := .jobj [("error", .jstr msg)]

/-- `True` exactly on dicts carrying an `error` key — the error-marker shape
of line 148. -/
def isErrObj : JValue → Bool
  | .jobj fs => fs.any (fun p => p.1 == "error")
  | _ => false

/-- The message text of a Python exception is environment-specific; the
model uses one fixed string for every exception caught during the merge. -/
def mergeErrMsg : String := "merge raised"

/-- `update_from_events` as a state transformer: given the events batch,
the current state and the outcome of the `minds_ai.run_prompt` call
(`Except.error` models the call raising, e.g. the timeout `RuntimeError`),
return the value returned to the caller and the new state.  The events are
embedded in the prompt and recorded as diagnostics only — they never touch
vitals, memory or version, which the unused binder makes explicit. -/
def updateFromEvents (_events : List JValue) (st : PMState)
    (outcome : Except String RawOutput) : JValue × PMState :=
  match outcome with
  | .error msg => (jerr msg, st)
  | .ok raw =>
    let parsed := parsedOfRaw raw
    match mergeProposal parsed st with
    | .ok st' => (parsed, st')
    | .error st' => (jerr mergeErrMsg, st')

/-- The dict returned by `push_persona`: the snapshot payload and the
assessment text. -/
structure PushOutcome where
  payload_timestamp : String
  payload_id : String
  payload_state : PMState
  assessment_raw : String
deriving Repr, DecidableEq

/-- `push_persona`, parameterised by the clock reading and the outcome of
the narrator call: a failure never propagates — its message is embedded as
`"AI assessment failed: ..."` and a well-formed result is still returned. -/
def pushPersona (id : String) (st : PMState) (now : String)
    (assess : Except String String) : PushOutcome :=
  { payload_timestamp := now,
    payload_id := id,
    payload_state := st,
    assessment_raw :=
      match assess with
      | .ok t => t
      | .error e => "AI assessment failed: " ++ e }

/-- A commit record as consumed by the scanner: `c.get("message")`,
`c.get("date")`, `c.get("author_date")`. -/
structure Commit where
  message : Option String
  date : Option String
  author_date : Option String
deriving Repr, DecidableEq

/-- Python `s.lower()` (ASCII case suffices here). -/
def pyLower (s : String) : String := String.mk (s.toList.map Char.toLower)

/-- Python `x or y` on an optional string versus a string default: the
default is taken when the field is absent or empty (falsy). -/
def pyOrStr (a : Option String) (dflt : String) : String :=
  match a with
  | some s => if s.isEmpty then dflt else s
  | none => dflt

/-- `needle` is a leading segment of `hay`. -/
def leadsWith : List Char → List Char → Bool
  | [], _ => true
  | _ :: _, [] => false
  | a :: as, b :: bs => a == b && leadsWith as bs

/-- `needle` occurs contiguously somewhere in `hay`. -/
def occursIn (needle : List Char) : List Char → Bool
  | [] => leadsWith needle []
  | c :: rest => leadsWith needle (c :: rest) || occursIn needle rest

/-- Python `kw in msg`: substring membership. -/
def isSubstr (needle hay : String) : Bool := occursIn needle.toList hay.toList

/-- `s.replace(pat, rep)`: replace every non-overlapping occurrence, left to
right (fuel is the string length; at least one character is consumed per
step, so it never runs out for the non-empty patterns used here). -/
def replaceList : Nat → List Char → List Char → List Char → List Char
  | 0, _, _, _ => []
  | _, _, _, [] => []
  | fuel + 1, pat, rep, c :: rest =>
    if leadsWith pat (c :: rest) then
      rep ++ replaceList fuel pat rep ((c :: rest).drop pat.length)
    else c :: replaceList fuel pat rep rest

/-- Python `s.replace(pat, rep)` on strings. -/
def pyReplace (s pat rep : String) : String :=
  String.mk (replaceList s.toList.length pat.toList rep.toList s.toList)

def twoDigits (a b : Char) : Nat := (a.toNat - 48) * 10 + (b.toNat - 48)

/-- Models `datetime.fromisoformat(s).hour` (standard-library code, outside
the repository) on the `YYYY-MM-DD.HH:MM:SS[±HH:MM]` forms the scanner
feeds it (the separator is any of `T` or space; a trailing UTC offset is
accepted); `none` models the `ValueError` on anything else.  The hour
returned is the timestamp's own wall-clock hour, exactly as `dt.hour`. -/
def parseIsoHour (s : String) : Option Nat :=
  match s.toList with
  | y1 :: y2 :: y3 :: y4 :: '-' :: m1 :: m2 :: '-' :: d1 :: d2 :: sep ::
      h1 :: h2 :: ':' :: n1 :: n2 :: ':' :: s1 :: s2 :: rest =>
    if [y1, y2, y3, y4, m1, m2, d1, d2, h1, h2, n1, n2, s1, s2].all Char.isDigit
        && (sep == 'T' || sep == ' ') then
      let month := twoDigits m1 m2
      let day := twoDigits d1 d2
      let hour := twoDigits h1 h2
      let minute := twoDigits n1 n2
      let second := twoDigits s1 s2
      let tailOk :=
        match rest with
        | [] => true
        | sg :: o1 :: o2 :: ':' :: o3 :: o4 :: [] =>
          (sg == '+' || sg == '-') && [o1, o2, o3, o4].all Char.isDigit
            && twoDigits o1 o2 ≤ 23 && twoDigits o3 o4 ≤ 59
        | _ => false
      if 1 ≤ month && month ≤ 12 && 1 ≤ day && day ≤ 31 && hour ≤ 23
          && minute ≤ 59 && second ≤ 59 && tailOk then
        some hour
      else none
    else none
  | _ => none

/-- The despair keyword list (line 71). -/
def keywords : List String := ["fix", "broken", "god", "wip", "urgent", "bug"]

/-- `msg = (c.get("message") or "").lower()` (line 74). -/
def commitMsg (c : Commit) : String := pyLower (pyOrStr c.message "")

/-- Lines 75-86: parse the hour out of
`(c.get("date") or c.get("author_date") or "")` and award the zombie-hours
penalty when it lies in 1..4. -/
def zombiePart (c : Commit) : Nat × List String :=
  match parseIsoHour (pyReplace (pyOrStr c.date (pyOrStr c.author_date ""))
      "Z" "+00:00") with
  | some h =>
    if 1 ≤ h && h ≤ 4 then (10, ["Zombie commit at hour " ++ toString h])
    else (0, [])
  | none => (0, [])

/-- Lines 88-91: the short/opaque-message penalty. -/
def shortPart (c : Commit) : Nat × List String :=
  if 0 < (charTrim (commitMsg c).toList).length && (charTrim (commitMsg c).toList).length < 5 then
    (5, ["Short commit message"])
  else (0, [])

/-- Lines 93-98: the despair-keyword penalty, first matching keyword only
(the loop breaks). -/
def keywordPart (c : Commit) : Nat × List String :=
  match keywords.find? (fun kw => isSubstr kw (commitMsg c)) with
  | some kw => (8, ["Found keyword \x27" ++ kw ++ "\x27 in message"])
  | none => (0, [])

/-- The per-record body of the scanning loop (lines 73-98): penalty points
and the signal strings appended, in appending order (zombie hour, short
message, first matching keyword). -/
def recordScore (c : Commit) : Nat × List String :=
  ((zombiePart c).1 + (shortPart c).1 + (keywordPart c).1,
   (zombiePart c).2 ++ (shortPart c).2 ++ (keywordPart c).2)

/-- The accumulation across records (`score`, `signals`). -/
def scanCommits : List Commit → Nat → List String → Nat × List String
  | [], score, signals => (score, signals)
  | c :: rest, score, signals =>
    scanCommits rest (score + (recordScore c).1) (signals ++ (recordScore c).2)

/-- `list(dict.fromkeys(signals))`: de-duplication by exact text keeping the
first occurrence, order preserved. -/
def dedupFirstAux : List String → List String → List String
  | [], _ => []
  | s :: rest, seen =>
    if seen.contains s then dedupFirstAux rest seen
    else s :: dedupFirstAux rest (s :: seen)

def dedupFirst (l : List String) : List String := dedupFirstAux l []

structure BurnoutResult where
  damage : Nat
  signals : List String
  count : Nat
deriving Repr, DecidableEq

/-- `calculate_burnout_score_locally`. -/
def calculate_burnout_score_locally (commits : List Commit) : BurnoutResult :=
  if commits.isEmpty then { damage := 0, signals := [], count := 0 }
  else
    let r := scanCommits commits 0 []
    { damage := min 100 r.1,
      signals := dedupFirst r.2,
      count := commits.length }

/-- Every channel value lies in `[0, 100]`. -/
def vitalsInRange (l : List (String × Int)) : Prop :=
  ∀ p ∈ l, 0 ≤ p.2 ∧ p.2 ≤ 100

instance (l : List (String × Int)) : Decidable (vitalsInRange l) := by
  unfold vitalsInRange; infer_instance

/-- The channel-name list of a vitals dict. -/
def keysOf (l : List (String × Int)) : List String := l.map Prod.fst

/-- The state carried by either side of the merge result (the Python object
is mutated in place, so both the normal and the exceptional exit leave a
state behind). -/
def outState : Except PMState PMState → PMState
  | .ok st => st
  | .error st => st

def bracketDelta (c : Char) : Int :=
  if isOpenB c then 1 else if isCloseB c then -1 else 0

/-- Net bracket depth contributed by the first `n` characters. -/
def depthAfter (cs : List Char) (n : Nat) : Int :=
  ((cs.take n).map bracketDelta).sum

/-- Index of the character at which the depth, started at `d`, first returns
to zero. -/
def firstZero : List Char → Int → Option Nat
  | [], _ => none
  | c :: rest, d =>
    if d + bracketDelta c == 0 then some 0
    else (firstZero rest (d + bracketDelta c)).map (fun n => n + 1)

/-- The extractor as the claim words it: first opening bracket, then the
segment up to the point where the bracket depth returns to zero. -/
def findJsonSubstringSpec (s : String) : Option String :=
  let t := charTrim s.toList
  let rest := t.dropWhile (fun c => !isOpenB c)
  match rest with
  | [] => none
  | _ => (firstZero rest 0).map (fun n => String.mk (rest.take (n + 1)))

/-- The claim's description of the whole parsing pipeline, with the
spec-level extractor: first balanced substring if it parses, else the whole
text, else the empty object. -/
def parseRawSpec (raw : String) : JValue :=
  match findJsonSubstringSpec raw with
  | some sub =>
    match jsonParse sub with
    | some v => v
    | none =>
      match jsonParse raw with
      | some v => v
      | none => .jobj []
  | none =>
    match jsonParse raw with
    | some v => v
    | none => .jobj []

/-- The effective timestamp hour of a record (the hour `datetime` parses
out of `c.get("date") or c.get("author_date") or ""`). -/
def specHour (c : Commit) : Option Nat :=
  parseIsoHour (pyReplace (pyOrStr c.date (pyOrStr c.author_date ""))
      "Z" "+00:00")

/-- The per-record penalty exactly as section 4.1 of the spec words it:
+10 if the hour parses and lies in [1,4]; +5 if the trimmed message length
is 1-4; +8 if any despair keyword occurs in the lower-cased message, at
most once per record. -/
def specRecordPenalty (c : Commit) : Nat :=
  (match specHour c with
   | some h => if 1 ≤ h ∧ h ≤ 4 then 10 else 0
   | none => 0) +
  (if 0 < (charTrim (commitMsg c).toList).length ∧ (charTrim (commitMsg c).toList).length < 5 then 5
   else 0) +
  (if ∃ kw ∈ keywords, isSubstr kw (commitMsg c) then 8 else 0)

/-! ## Lemmas -/

lemma clamp_mem (n : Int) : 0 ≤ clamp n ∧ clamp n ≤ 100 := by
  unfold clamp; omega

lemma setVal_inRange {l : List (String × Int)} {k : String} {v : Int}
    (hl : vitalsInRange l) (hv : 0 ≤ v ∧ v ≤ 100) :
    vitalsInRange (setVal l k v) := by
  intro p hp
  simp only [setVal, List.mem_map] at hp
  obtain ⟨q, hq, rfl⟩ := hp
  split
  · exact hv
  · exact hl q hq

lemma setVal_keys (l : List (String × Int)) (k : String) (v : Int) :
    keysOf (setVal l k v) = keysOf l := by
  unfold keysOf setVal
  rw [List.map_map]
  refine List.map_congr_left (fun p _ => ?_)
  simp only [Function.comp_apply]
  split <;> rfl

lemma hasKey_eq_keysOf (l : List (String × Int)) (k : String) :
    hasKey l k = (keysOf l).any (fun s => s == k) := by
  induction l with
  | nil => rfl
  | cons p rest ih =>
    simp only [hasKey, keysOf, List.map_cons, List.any_cons] at ih ⊢
    rw [ih]

lemma hasKey_congr {l l' : List (String × Int)} (h : keysOf l = keysOf l')
    (k : String) : hasKey l k = hasKey l' k := by
  rw [hasKey_eq_keysOf, hasKey_eq_keysOf, h]

lemma getVal_setVal : ∀ (l : List (String × Int)) (k : String) (v : Int),
    hasKey l k = true → getVal (setVal l k v) k = v := by
  intro l k v hk
  induction l with
  | nil => simp [hasKey] at hk
  | cons p rest ih =>
    by_cases hp : (p.1 == k) = true
    · simp [getVal, setVal, hp]
    · have hk' : hasKey rest k = true := by
        simp only [hasKey, List.any_cons, hp, Bool.false_or] at hk
        exact hk
      have hstep : setVal (p :: rest) k v = p :: setVal rest k v := by
        simp only [setVal, List.map_cons]
        congr 1
        simp [hp]
      rw [hstep]
      simp only [getVal, hp, if_false]
      exact ih hk'

lemma applyNewStats_inRange :
    ∀ (items : List (String × JValue)) (l : List (String × Int)) (c : Bool),
      vitalsInRange l → vitalsInRange (applyNewStats items l c).1 := by
  intro items
  induction items with
  | nil => intro l c hl; exact hl
  | cons item rest ih =>
    intro l c hl
    obtain ⟨k, v⟩ := item
    simp only [applyNewStats]
    split
    · split
      · exact ih _ _ (setVal_inRange hl (clamp_mem _))
      · exact hl
    · exact ih _ _ hl

lemma applyAdjustments_inRange :
    ∀ (items : List (String × JValue)) (l : List (String × Int)) (c : Bool),
      vitalsInRange l → vitalsInRange (applyAdjustments items l c).1 := by
  intro items
  induction items with
  | nil => intro l c hl; exact hl
  | cons item rest ih =>
    intro l c hl
    obtain ⟨k, v⟩ := item
    simp only [applyAdjustments]
    split
    · split
      · exact ih _ _ (setVal_inRange hl (clamp_mem _))
      · exact ih _ _ hl
    · exact ih _ _ hl

lemma applyNewStats_keys :
    ∀ (items : List (String × JValue)) (l : List (String × Int)) (c : Bool),
      keysOf (applyNewStats items l c).1 = keysOf l := by
  intro items
  induction items with
  | nil => intro l c; rfl
  | cons item rest ih =>
    intro l c
    obtain ⟨k, v⟩ := item
    simp only [applyNewStats]
    split
    · split
      · rw [ih, setVal_keys]
      · rfl
    · exact ih _ _

lemma applyAdjustments_keys :
    ∀ (items : List (String × JValue)) (l : List (String × Int)) (c : Bool),
      keysOf (applyAdjustments items l c).1 = keysOf l := by
  intro items
  induction items with
  | nil => intro l c; rfl
  | cons item rest ih =>
    intro l c
    obtain ⟨k, v⟩ := item
    simp only [applyAdjustments]
    split
    · split
      · rw [ih, setVal_keys]
      · exact ih _ _
    · exact ih _ _

lemma applyNewStats_flag_mono :
    ∀ (items : List (String × JValue)) (l : List (String × Int)),
      (applyNewStats items l true).2.1 = true := by
  intro items
  induction items with
  | nil => intro l; rfl
  | cons item rest ih =>
    intro l
    obtain ⟨k, v⟩ := item
    by_cases hk : hasKey l k = true
    · cases hv : pyInt v with
      | some n => simp only [applyNewStats, hk, if_true, hv]; exact ih _
      | none => simp [applyNewStats, hk, hv]
    · simp only [applyNewStats, if_neg hk]; exact ih _

lemma applyAdjustments_flag_mono :
    ∀ (items : List (String × JValue)) (l : List (String × Int)),
      (applyAdjustments items l true).2 = true := by
  intro items
  induction items with
  | nil => intro l; rfl
  | cons item rest ih =>
    intro l
    obtain ⟨k, v⟩ := item
    by_cases hk : hasKey l k = true
    · cases hv : pyInt v with
      | some n => simp only [applyAdjustments, hk, if_true, hv]; exact ih _
      | none => simp only [applyAdjustments, hk, if_true, hv]; exact ih _
    · simp only [applyAdjustments, if_neg hk]; exact ih _

/-- If the `new_stats` loop ends with the `changed` flag still down, it
performed no assignment at all. -/
lemma applyNewStats_unchanged :
    ∀ (items : List (String × JValue)) (l : List (String × Int)),
      (applyNewStats items l false).2.1 = false →
      (applyNewStats items l false).1 = l := by
  intro items
  induction items with
  | nil => intro l _; rfl
  | cons item rest ih =>
    intro l h
    obtain ⟨k, v⟩ := item
    by_cases hk : hasKey l k = true
    · cases hv : pyInt v with
      | some n =>
        exfalso
        simp only [applyNewStats, hk, if_true, hv, applyNewStats_flag_mono] at h
        exact absurd h (by decide)
      | none => simp [applyNewStats, hk, hv]
    · simp only [applyNewStats, if_neg hk] at h ⊢
      exact ih _ h

/-- Same for the `adjustments` loop. -/
lemma applyAdjustments_unchanged :
    ∀ (items : List (String × JValue)) (l : List (String × Int)),
      (applyAdjustments items l false).2 = false →
      (applyAdjustments items l false).1 = l := by
  intro items
  induction items with
  | nil => intro l _; rfl
  | cons item rest ih =>
    intro l h
    obtain ⟨k, v⟩ := item
    by_cases hk : hasKey l k = true
    · cases hv : pyInt v with
      | some n =>
        exfalso
        simp only [applyAdjustments, hk, if_true, hv, applyAdjustments_flag_mono] at h
        exact absurd h (by decide)
      | none =>
        simp only [applyAdjustments, hk, if_true, hv] at h ⊢
        exact ih _ h
    · simp only [applyAdjustments, if_neg hk] at h ⊢
      exact ih _ h

/-- An empty proposal dict is a strict no-op. -/
lemma merge_empty (st : PMState) : mergeProposal (.jobj []) st = .ok st := rfl

/-- An exception escaping the merge can only have happened before the
memory-prepend loop inserted anything and before the version bump: an
error exit leaves `memory` and `version` untouched. -/
lemma merge_error_frame (parsed : JValue) (st st' : PMState)
    (h : mergeProposal parsed st = .error st') :
    st'.memory = st.memory ∧ st'.version = st.version := by
  cases parsed with
  | jobj fields =>
    simp only [mergeProposal] at h
    split at h
    · injection h with h'
      subst h'
      exact ⟨rfl, rfl⟩
    · split at h
      · injection h with h'
        subst h'
        exact ⟨rfl, rfl⟩
      · injection h
  | jnull => injection h with h'; subst h'; exact ⟨rfl, rfl⟩
  | jbool b => injection h with h'; subst h'; exact ⟨rfl, rfl⟩
  | jint n => injection h with h'; subst h'; exact ⟨rfl, rfl⟩
  | jstr s => injection h with h'; subst h'; exact ⟨rfl, rfl⟩
  | jarr xs => injection h with h'; subst h'; exact ⟨rfl, rfl⟩

lemma nsStage_inRange (fields : List (String × JValue))
    (v : List (String × Int)) (h : vitalsInRange v) :
    vitalsInRange (nsStage fields v).1 := by
  unfold nsStage
  split
  · exact applyNewStats_inRange _ _ _ h
  · exact h

lemma adjStage_inRange (fields : List (String × JValue))
    (v : List (String × Int)) (c : Bool) (h : vitalsInRange v) :
    vitalsInRange (adjStage fields v c).1 := by
  unfold adjStage
  split
  · exact applyAdjustments_inRange _ _ _ h
  · exact h

lemma nsStage_keys (fields : List (String × JValue)) (v : List (String × Int)) :
    keysOf (nsStage fields v).1 = keysOf v := by
  unfold nsStage
  split
  · exact applyNewStats_keys _ _ _
  · rfl

lemma adjStage_keys (fields : List (String × JValue)) (v : List (String × Int))
    (c : Bool) : keysOf (adjStage fields v c).1 = keysOf v := by
  unfold adjStage
  split
  · exact applyAdjustments_keys _ _ _
  · rfl

/-- Every state the merge can leave behind (normal or exceptional) has all
vitals clamped into `[0, 100]`, provided they started there. -/
lemma merge_inRange (parsed : JValue) (st : PMState)
    (hst : vitalsInRange st.vitals) :
    vitalsInRange (outState (mergeProposal parsed st)).vitals := by
  cases parsed with
  | jobj fields =>
    simp only [mergeProposal]
    split
    · simpa [outState] using nsStage_inRange fields st.vitals hst
    · split
      · simpa [outState] using
          adjStage_inRange fields _ _ (nsStage_inRange fields st.vitals hst)
      · simpa [outState] using
          adjStage_inRange fields _ _ (nsStage_inRange fields st.vitals hst)
  | jnull => exact hst
  | jbool b => exact hst
  | jint n => exact hst
  | jstr s => exact hst
  | jarr xs => exact hst

/-- The merge never creates or removes a channel, on any exit. -/
lemma merge_keys (parsed : JValue) (st : PMState) :
    keysOf (outState (mergeProposal parsed st)).vitals = keysOf st.vitals := by
  cases parsed with
  | jobj fields =>
    simp only [mergeProposal]
    split
    · simpa [outState] using nsStage_keys fields st.vitals
    · split
      · simpa [outState] using
          (adjStage_keys fields _ _).trans (nsStage_keys fields st.vitals)
      · simpa [outState] using
          (adjStage_keys fields _ _).trans (nsStage_keys fields st.vitals)
  | jnull => rfl
  | jbool b => rfl
  | jint n => rfl
  | jstr s => rfl
  | jarr xs => rfl

/-- If the `adjustments` stage reports no change, the flag was already down
and the vitals went through untouched. -/
lemma adjStage_unchanged (fields : List (String × JValue))
    (v : List (String × Int)) (c : Bool)
    (h : (adjStage fields v c).2 = false) :
    c = false ∧ (adjStage fields v c).1 = v := by
  unfold adjStage at h ⊢
  cases hj : JValue.jget fields "adjustments" with
  | jobj items =>
    simp only [hj] at h ⊢
    cases c with
    | false => exact ⟨rfl, applyAdjustments_unchanged items v h⟩
    | true =>
      rw [applyAdjustments_flag_mono] at h
      exact absurd h (by decide)
  | jnull => simp only [hj] at h ⊢; exact ⟨h, trivial⟩
  | jbool b => simp only [hj] at h ⊢; exact ⟨h, trivial⟩
  | jint n => simp only [hj] at h ⊢; exact ⟨h, trivial⟩
  | jstr s => simp only [hj] at h ⊢; exact ⟨h, trivial⟩
  | jarr xs => simp only [hj] at h ⊢; exact ⟨h, trivial⟩

/-- If the `new_stats` stage reports no change, the vitals went through
untouched. -/
lemma nsStage_unchanged (fields : List (String × JValue))
    (v : List (String × Int))
    (h : (nsStage fields v).2.1 = false) :
    (nsStage fields v).1 = v := by
  unfold nsStage at h ⊢
  cases hj : JValue.jget fields "new_stats" with
  | jobj items =>
    simp only [hj] at h ⊢
    exact applyNewStats_unchanged items v h
  | jnull => rfl
  | jbool b => rfl
  | jint n => rfl
  | jstr s => rfl
  | jarr xs => rfl

/-- The version counter can only stand still or take the single `+ 1` bump
of lines 132-133, on every exit of the merge. -/
lemma merge_version_cases (parsed : JValue) (st : PMState) :
    (outState (mergeProposal parsed st)).version = st.version ∨
    (outState (mergeProposal parsed st)).version = st.version + 1 := by
  cases parsed with
  | jobj fields =>
    simp only [mergeProposal]
    split
    · left; rfl
    · split
      · left; rfl
      · simp only [outState]
        split
        · right; rfl
        · left; rfl
  | jnull => left; rfl
  | jbool b => left; rfl
  | jint n => left; rfl
  | jstr s => left; rfl
  | jarr xs => left; rfl

/-- On the normal exit, a merge that changed the value of vitals or memory
bumped the version by exactly 1. -/
lemma merge_ok_version_of_change (parsed : JValue) (st st' : PMState)
    (h : mergeProposal parsed st = .ok st')
    (hch : st'.vitals ≠ st.vitals ∨ st'.memory ≠ st.memory) :
    st'.version = st.version + 1 := by
  cases parsed with
  | jobj fields =>
    simp only [mergeProposal] at h
    split at h
    · injection h
    · split at h
      · injection h
      · rename_i hflag adds hma
        injection h with h'
        subst h'
        simp only at hch ⊢
        by_cases hc :
            ((adjStage fields (nsStage fields st.vitals).1
              (nsStage fields st.vitals).2.1).2 || !adds.isEmpty) = true
        · simp [hc]
        · exfalso
          rw [Bool.not_eq_true, Bool.or_eq_false_iff] at hc
          obtain ⟨h2, hadds⟩ := hc
          have hadds' : adds = [] := by
            cases adds with
            | nil => rfl
            | cons a rest => simp at hadds
          obtain ⟨hc1, hv2⟩ := adjStage_unchanged fields _ _ h2
          have hv1 := nsStage_unchanged fields st.vitals hc1
          subst hadds'
          rcases hch with hch | hch
          · exact hch (hv2.trans hv1)
          · exact hch rfl
  | jnull => injection h
  | jbool b => injection h
  | jint n => injection h
  | jstr s => injection h
  | jarr xs => injection h

/-- On the normal exit the new memory is exactly the (str-coerced)
additions, each inserted at the front in order, ahead of the old memory. -/
lemma merge_ok_memory (fields : List (String × JValue)) (st st' : PMState)
    (h : mergeProposal (.jobj fields) st = .ok st') :
    ∃ adds, memElems (JValue.jget fields "memory_additions") = some adds ∧
      st'.memory = adds.reverse ++ st.memory := by
  simp only [mergeProposal] at h
  split at h
  · injection h
  · split at h
    · injection h
    · rename_i hflag adds hma
      injection h with h'
      subst h'
      exact ⟨adds, hma, rfl⟩

lemma depthAfter_cons (c : Char) (rest : List Char) (n : Nat) :
    depthAfter (c :: rest) (n + 1) = bracketDelta c + depthAfter rest n := by
  simp [depthAfter, List.take_succ_cons]

/-- `firstZero` finds exactly the first prefix whose net bracket sum cancels
the starting depth. -/
lemma firstZero_characterisation :
    ∀ (cs : List Char) (d : Int) (n : Nat),
      firstZero cs d = some n ↔
        (n < cs.length ∧ d + depthAfter cs (n + 1) = 0 ∧
          ∀ m < n, d + depthAfter cs (m + 1) ≠ 0) := by
  intro cs
  induction cs with
  | nil =>
    intro d n
    simp [firstZero]
  | cons c rest ih =>
    intro d n
    simp only [firstZero]
    by_cases hz : (d + bracketDelta c == 0) = true
    · rw [if_pos hz]
      have hz' : d + bracketDelta c = 0 := by simpa using hz
      constructor
      · intro h
        injection h with h'
        subst h'
        refine ⟨Nat.succ_pos _, ?_, by omega⟩
        rw [show (0 : Nat) + 1 = 0 + 1 from rfl, depthAfter_cons]
        simpa [depthAfter] using hz'
      · rintro ⟨hlen, hsum, hmin⟩
        cases n with
        | zero => rfl
        | succ n' =>
          exfalso
          have h0 := hmin 0 (Nat.succ_pos _)
          rw [depthAfter_cons] at h0
          simp [depthAfter] at h0
          exact h0 hz'
    · rw [if_neg hz]
      have hz' : d + bracketDelta c ≠ 0 := by simpa using hz
      constructor
      · intro h
        obtain ⟨n', hn', rfl⟩ := Option.map_eq_some'.mp h
        obtain ⟨hlen, hsum, hmin⟩ := (ih (d + bracketDelta c) n').mp hn'
        refine ⟨by simpa using Nat.succ_lt_succ hlen, ?_, ?_⟩
        · rw [depthAfter_cons]
          omega
        · intro m hm
          cases m with
          | zero =>
            rw [depthAfter_cons]
            simpa [depthAfter] using hz'
          | succ m' =>
            rw [depthAfter_cons]
            have := hmin m' (by omega)
            omega
      · rintro ⟨hlen, hsum, hmin⟩
        cases n with
        | zero =>
          exfalso
          rw [depthAfter_cons] at hsum
          simp [depthAfter] at hsum
          exact hz' hsum
        | succ n' =>
          have hn' : firstZero rest (d + bracketDelta c) = some n' := by
            refine (ih (d + bracketDelta c) n').mpr ⟨by simpa using hlen, ?_, ?_⟩
            · rw [depthAfter_cons] at hsum
              omega
            · intro m hm
              have := hmin (m + 1) (by omega)
              rw [depthAfter_cons] at this
              omega
          simp [hn']

lemma takeBalanced_cons_open {c : Char} (rest : List Char) (d : Nat)
    (acc : List Char) (h : isOpenB c = true) :
    takeBalanced (c :: rest) d acc = takeBalanced rest (d + 1) (c :: acc) := by
  simp [takeBalanced, h]

lemma takeBalanced_cons_close_one {c : Char} (rest : List Char)
    (acc : List Char) (ho : isOpenB c = false) (hc : isCloseB c = true) :
    takeBalanced (c :: rest) 1 acc = some (c :: acc).reverse := by
  simp [takeBalanced, ho, hc]

lemma takeBalanced_cons_close_two {c : Char} (rest : List Char) (f : Nat)
    (acc : List Char) (ho : isOpenB c = false) (hc : isCloseB c = true) :
    takeBalanced (c :: rest) (f + 2) acc =
      takeBalanced rest (f + 1) (c :: acc) := by
  simp [takeBalanced, ho, hc]

lemma takeBalanced_cons_other {c : Char} (rest : List Char) (d : Nat)
    (acc : List Char) (ho : isOpenB c = false) (hc : isCloseB c = false) :
    takeBalanced (c :: rest) d acc = takeBalanced rest d (c :: acc) := by
  simp [takeBalanced, ho, hc]

lemma firstZero_cons_zero {c : Char} (rest : List Char) {d : Int}
    (h : d + bracketDelta c = 0) : firstZero (c :: rest) d = some 0 := by
  simp [firstZero, h]

lemma firstZero_cons_pos {c : Char} (rest : List Char) {d : Int}
    (h : d + bracketDelta c ≠ 0) :
    firstZero (c :: rest) d =
      (firstZero rest (d + bracketDelta c)).map (fun n => n + 1) := by
  simp [firstZero, h]

/-- The stack-based scanning loop computes exactly the first
return-to-zero-depth segment, for any positive starting depth (the scan
always starts right after pushing the opening bracket). -/
lemma takeBalanced_eq_firstZero :
    ∀ (cs : List Char) (d : Nat) (acc : List Char), 0 < d →
      takeBalanced cs d acc =
        (firstZero cs (d : Int)).map (fun n => acc.reverse ++ cs.take (n + 1)) := by
  intro cs
  induction cs with
  | nil => intro d acc _; rfl
  | cons c rest ih =>
    intro d acc hd
    by_cases ho : isOpenB c = true
    · have hdelta : bracketDelta c = 1 := by simp [bracketDelta, ho]
      rw [takeBalanced_cons_open rest d acc ho,
        firstZero_cons_pos rest (d := (d : Int)) (by rw [hdelta]; omega),
        hdelta, show (d : Int) + 1 = ((d + 1 : Nat) : Int) by push_cast; ring,
        ih (d + 1) (c :: acc) (Nat.succ_pos _)]
      cases firstZero rest ((d + 1 : Nat) : Int) with
      | none => rfl
      | some n =>
        simp [List.take_succ_cons, List.reverse_cons, List.append_assoc]
    · by_cases hc : isCloseB c = true
      · have ho' : isOpenB c = false := by simpa using ho
        have hdelta : bracketDelta c = -1 := by simp [bracketDelta, ho, hc]
        obtain ⟨e, rfl⟩ : ∃ e, d = e + 1 := ⟨d - 1, by omega⟩
        cases e with
        | zero =>
          rw [takeBalanced_cons_close_one rest acc ho' hc,
            firstZero_cons_zero rest (by rw [hdelta]; norm_num)]
          simp [List.reverse_cons]
        | succ f =>
          rw [takeBalanced_cons_close_two rest f acc ho' hc,
            firstZero_cons_pos rest (by rw [hdelta]; push_cast; omega),
            hdelta,
            show ((f + 1 + 1 : Nat) : Int) + -1 = ((f + 1 : Nat) : Int) by
              push_cast; ring,
            ih (f + 1) (c :: acc) (Nat.succ_pos _)]
          cases firstZero rest ((f + 1 : Nat) : Int) with
          | none => rfl
          | some n =>
            simp [List.take_succ_cons, List.reverse_cons, List.append_assoc]
      · have ho' : isOpenB c = false := by simpa using ho
        have hc' : isCloseB c = false := by simpa using hc
        have hdelta : bracketDelta c = 0 := by simp [bracketDelta, ho, hc]
        rw [takeBalanced_cons_other rest d acc ho' hc',
          firstZero_cons_pos rest (by rw [hdelta]; omega),
          hdelta, show (d : Int) + 0 = (d : Int) by ring,
          ih d (c :: acc) hd]
        cases firstZero rest (d : Int) with
        | none => rfl
        | some n =>
          simp [List.take_succ_cons, List.reverse_cons, List.append_assoc]

lemma dropWhile_head_false (p : Char → Bool) :
    ∀ (l : List Char) (c : Char) (rest : List Char),
      l.dropWhile p = c :: rest → p c = false := by
  intro l
  induction l with
  | nil => intro c rest h; simp [List.dropWhile] at h
  | cons a as ih =>
    intro c rest h
    rw [List.dropWhile_cons] at h
    split at h
    · exact ih _ _ h
    · injection h with h1 h2
      subst h1
      rename_i hpa
      simpa using hpa

/-- The implementation extractor coincides with its depth-scan
specification. -/
lemma findJsonSubstring_eq_spec (s : String) :
    findJsonSubstring s = findJsonSubstringSpec s := by
  simp only [findJsonSubstring, findJsonSubstringSpec]
  cases hrest : (charTrim s.toList).dropWhile (fun c => !isOpenB c) with
  | nil => rfl
  | cons c rest' =>
    have ho : isOpenB c = true := by
      have := dropWhile_head_false _ _ _ _ hrest
      simpa using this
    have hdelta : bracketDelta c = 1 := by simp [bracketDelta, ho]
    show (takeBalanced (c :: rest') 0 []).map (fun cs => String.mk cs) =
      (firstZero (c :: rest') 0).map (fun n => String.mk ((c :: rest').take (n + 1)))
    rw [takeBalanced_cons_open rest' 0 [] ho,
      takeBalanced_eq_firstZero rest' (0 + 1) [c] (by omega),
      firstZero_cons_pos rest' (d := (0 : Int)) (by rw [hdelta]; omega),
      hdelta,
      show ((0 : Int) + 1) = (((0 + 1 : Nat)) : Int) by norm_num]
    cases firstZero rest' (((0 + 1 : Nat)) : Int) with
    | none => rfl
    | some n => simp [List.take_succ_cons]

lemma parseRaw_eq_spec (raw : String) : parseRaw raw = parseRawSpec raw := by
  simp only [parseRaw, parseRawSpec, findJsonSubstring_eq_spec]

lemma scanCommits_spec :
    ∀ (cs : List Commit) (s : Nat) (g : List String),
      scanCommits cs s g =
        (s + (cs.map (fun c => (recordScore c).1)).sum,
         g ++ (cs.map (fun c => (recordScore c).2)).flatten) := by
  intro cs
  induction cs with
  | nil => intro s g; simp [scanCommits]
  | cons c rest ih =>
    intro s g
    simp only [scanCommits, ih, List.map_cons, List.sum_cons]
    simp [List.flatten_cons, Nat.add_assoc, List.append_assoc]

lemma dedupFirstAux_not_seen :
    ∀ (l seen : List String) (x : String),
      x ∈ dedupFirstAux l seen → x ∉ seen := by
  intro l
  induction l with
  | nil => intro seen x h; simp [dedupFirstAux] at h
  | cons s rest ih =>
    intro seen x h
    simp only [dedupFirstAux] at h
    split at h
    · exact ih _ _ h
    · rename_i hc
      rcases List.mem_cons.mp h with rfl | hmem
      · intro hx
        exact hc (List.elem_iff.mpr hx)
      · intro hx
        exact ih _ _ hmem (List.mem_cons_of_mem _ hx)

lemma dedupFirstAux_nodup :
    ∀ (l seen : List String), (dedupFirstAux l seen).Nodup := by
  intro l
  induction l with
  | nil => intro seen; exact List.nodup_nil
  | cons s rest ih =>
    intro seen
    simp only [dedupFirstAux]
    split
    · exact ih _
    · refine List.nodup_cons.mpr ⟨?_, ih _⟩
      intro hmem
      exact dedupFirstAux_not_seen rest (s :: seen) s hmem (List.mem_cons_self _ _)

lemma dedupFirstAux_sublist :
    ∀ (l seen : List String), (dedupFirstAux l seen).Sublist l := by
  intro l
  induction l with
  | nil => intro seen; exact List.Sublist.refl _
  | cons s rest ih =>
    intro seen
    simp only [dedupFirstAux]
    split
    · exact List.Sublist.trans (ih _) (List.sublist_cons_self _ _)
    · exact List.Sublist.cons₂ _ (ih _)

lemma dedupFirstAux_mem :
    ∀ (l seen : List String) (x : String),
      x ∈ dedupFirstAux l seen ↔ (x ∈ l ∧ x ∉ seen) := by
  intro l
  induction l with
  | nil => intro seen x; simp [dedupFirstAux]
  | cons s rest ih =>
    intro seen x
    simp only [dedupFirstAux]
    split
    · rename_i hc
      rw [ih]
      constructor
      · rintro ⟨h1, h2⟩
        exact ⟨List.mem_cons_of_mem _ h1, h2⟩
      · rintro ⟨h1, h2⟩
        rcases List.mem_cons.mp h1 with rfl | h1'
        · exact absurd (List.elem_iff.mp hc) h2
        · exact ⟨h1', h2⟩
    · rename_i hc
      constructor
      · intro h
        rcases List.mem_cons.mp h with rfl | hmem
        · exact ⟨List.mem_cons_self _ _, fun hx => hc (List.elem_iff.mpr hx)⟩
        · obtain ⟨h1, h2⟩ := (ih _ _).mp hmem
          exact ⟨List.mem_cons_of_mem _ h1,
            fun hx => h2 (List.mem_cons_of_mem _ hx)⟩
      · rintro ⟨h1, h2⟩
        rcases List.mem_cons.mp h1 with rfl | h1'
        · exact List.mem_cons_self _ _
        · by_cases hxs : x = s
          · subst hxs; exact List.mem_cons_self _ _
          · exact List.mem_cons_of_mem _
              ((ih _ _).mpr ⟨h1', by
                intro hx
                rcases List.mem_cons.mp hx with h | h
                · exact hxs h
                · exact h2 h⟩)

/-- Membership in `dedupFirst l` is membership in `l`. -/
lemma dedupFirst_mem (l : List String) (x : String) :
    x ∈ dedupFirst l ↔ x ∈ l := by
  unfold dedupFirst
  rw [dedupFirstAux_mem]
  simp

/-- The loop body awards exactly the section 4.1 penalty. -/
lemma recordScore_eq_spec (c : Commit) :
    (recordScore c).1 = specRecordPenalty c := by
  have h1 : (zombiePart c).1 =
      (match specHour c with
       | some h => if 1 ≤ h ∧ h ≤ 4 then 10 else 0
       | none => 0) := by
    unfold zombiePart specHour
    cases parseIsoHour (pyReplace (pyOrStr c.date (pyOrStr c.author_date ""))
      "Z" "+00:00") with
    | none => rfl
    | some h =>
      simp only [Bool.and_eq_true, decide_eq_true_eq]
      by_cases hh : 1 ≤ h ∧ h ≤ 4
      · rw [if_pos hh, if_pos hh]
      · rw [if_neg hh, if_neg hh]
  have h2 : (shortPart c).1 =
      (if 0 < (charTrim (commitMsg c).toList).length ∧ (charTrim (commitMsg c).toList).length < 5
       then 5 else 0) := by
    unfold shortPart
    simp only [Bool.and_eq_true, decide_eq_true_eq]
    by_cases hh : 0 < (charTrim (commitMsg c).toList).length ∧ (charTrim (commitMsg c).toList).length < 5
    · rw [if_pos hh, if_pos hh]
    · rw [if_neg hh, if_neg hh]
  have h3 : (keywordPart c).1 =
      (if ∃ kw ∈ keywords, isSubstr kw (commitMsg c) then 8 else 0) := by
    unfold keywordPart
    cases hf : keywords.find? (fun kw => isSubstr kw (commitMsg c)) with
    | some kw =>
      rw [if_pos ⟨kw, List.mem_of_find?_eq_some hf, by
        simpa using List.find?_some hf⟩]
    | none =>
      rw [if_neg]
      rintro ⟨kw, hmem, hp⟩
      have := List.find?_eq_none.mp hf kw hmem
      simp [hp] at this
  show (zombiePart c).1 + (shortPart c).1 + (keywordPart c).1 = _
  rw [h1, h2, h3]
  rfl

lemma calc_damage (commits : List Commit) :
    (calculate_burnout_score_locally commits).damage =
      min 100 (commits.map specRecordPenalty).sum := by
  cases commits with
  | nil => rfl
  | cons c rest =>
    unfold calculate_burnout_score_locally
    rw [if_neg (by simp)]
    have hmap : List.map (fun c => (recordScore c).1) (c :: rest) =
        List.map specRecordPenalty (c :: rest) :=
      List.map_congr_left (fun a _ => recordScore_eq_spec a)
    simp [scanCommits_spec, hmap]

lemma calc_count (commits : List Commit) :
    (calculate_burnout_score_locally commits).count = commits.length := by
  cases commits with
  | nil => rfl
  | cons c rest =>
    unfold calculate_burnout_score_locally
    rw [if_neg (by simp)]

lemma calc_signals (commits : List Commit) :
    (calculate_burnout_score_locally commits).signals =
      dedupFirst ((commits.map (fun c => (recordScore c).2)).flatten) := by
  cases commits with
  | nil => rfl
  | cons c rest =>
    unfold calculate_burnout_score_locally
    rw [if_neg (by simp)]
    simp [scanCommits_spec]

/-- A failed remote call leaves the state exactly as it was. -/
lemma update_snd_err (events : List JValue) (st : PMState) (msg : String) :
    (updateFromEvents events st (.error msg)).2 = st := rfl

/-- On a completed remote call the new state is whatever the merge left
behind, on either of its exits. -/
lemma update_snd_ok (events : List JValue) (st : PMState) (raw : RawOutput) :
    (updateFromEvents events st (.ok raw)).2 =
      outState (mergeProposal (parsedOfRaw raw) st) := by
  cases hm : mergeProposal (parsedOfRaw raw) st with
  | ok st' => simp [updateFromEvents, hm, outState]
  | error st' => simp [updateFromEvents, hm, outState]

/-- A proposal consisting only of a list-valued `memory_additions`: every
element is `str()`-coerced and prepended; the version bumps exactly when the
list is non-empty. -/
lemma merge_memadds_arr (st : PMState) (xs : List JValue) :
    mergeProposal (.jobj [("memory_additions", .jarr xs)]) st =
      .ok { vitals := st.vitals,
            memory := (xs.map pyStr).reverse ++ st.memory,
            version := if xs.isEmpty then st.version else st.version + 1 } := by
  cases xs with
  | nil => rfl
  | cons x rest =>
    simp only [mergeProposal, nsStage, adjStage, JValue.jget, memElems]
    have h1 : ("memory_additions" == "new_stats") = false := by decide
    have h2 : ("memory_additions" == "adjustments") = false := by decide
    simp [h1, h2]

/-- A proposal consisting only of a string-valued `memory_additions`: the
string is iterated character by character, each single-character string is
prepended, and the version bumps (the string being non-empty means at least
one insertion happened). -/
lemma merge_memadds_str (st : PMState) (s : String) (hs : s ≠ "") :
    mergeProposal (.jobj [("memory_additions", .jstr s)]) st =
      .ok { vitals := st.vitals,
            memory := (s.toList.map (fun c => String.mk [c])).reverse ++
              st.memory,
            version := st.version + 1 } := by
  have hdata : s.toList ≠ [] := by
    intro h
    apply hs
    cases s with
    | mk data =>
      simp only [String.toList] at h
      subst h
      rfl
  have h1 : ("memory_additions" == "new_stats") = false := by decide
  have h2 : ("memory_additions" == "adjustments") = false := by decide
  cases hdat : s.toList with
  | nil => exact absurd hdat hdata
  | cons c rest =>
    have hdat' : s.data = c :: rest := hdat
    simp [mergeProposal, nsStage, adjStage, JValue.jget, memElems, h1, h2,
      hdat, hdat', List.reverse_cons, List.append_assoc]

/-- Updating an existing channel does not change which channels exist. -/
lemma hasKey_setVal (v : List (String × Int)) (k : String) (x : Int)
    (j : String) : hasKey (setVal v k x) j = hasKey v j :=
  hasKey_congr (setVal_keys v k x) j

/-- On a run that does not abort, the `new_stats` loop raises the flag
exactly when some entry names an existing channel. -/
lemma applyNewStats_flag_spec :
    ∀ (items : List (String × JValue)) (v : List (String × Int)) (c : Bool),
      (applyNewStats items v c).2.2 = false →
      (applyNewStats items v c).2.1 =
        (c || items.any (fun p => hasKey v p.1)) := by
  intro items
  induction items with
  | nil => intro v c _; simp [applyNewStats]
  | cons item rest ih =>
    intro v c hab
    obtain ⟨k, val⟩ := item
    by_cases hk : hasKey v k = true
    · cases hv : pyInt val with
      | some n =>
        have hstep : applyNewStats ((k, val) :: rest) v c =
            applyNewStats rest (setVal v k (clamp n)) true := by
          simp [applyNewStats, hk, hv]
        rw [hstep] at hab ⊢
        rw [ih _ _ hab]
        simp [hk, List.any_cons]
      | none =>
        exfalso
        simp [applyNewStats, hk, hv] at hab
    · have hstep : applyNewStats ((k, val) :: rest) v c =
          applyNewStats rest v c := by
        simp [applyNewStats, hk]
      rw [hstep] at hab ⊢
      rw [ih _ _ hab]
      simp [hk, List.any_cons]

/-- The `adjustments` loop raises the flag exactly when some entry names an
existing channel with a convertible value (it never aborts). -/
lemma applyAdjustments_flag_spec :
    ∀ (items : List (String × JValue)) (v : List (String × Int)) (c : Bool),
      (applyAdjustments items v c).2 =
        (c || items.any (fun p => hasKey v p.1 && (pyInt p.2).isSome)) := by
  intro items
  induction items with
  | nil => intro v c; simp [applyAdjustments]
  | cons item rest ih =>
    intro v c
    obtain ⟨k, d⟩ := item
    by_cases hk : hasKey v k = true
    · cases hv : pyInt d with
      | some n =>
        have hstep : applyAdjustments ((k, d) :: rest) v c =
            applyAdjustments rest (setVal v k (clamp (getVal v k + n)))
              true := by
          simp [applyAdjustments, hk, hv]
        rw [hstep, ih]
        simp [hk, hv, List.any_cons]
      | none =>
        have hstep : applyAdjustments ((k, d) :: rest) v c =
            applyAdjustments rest v c := by
          simp [applyAdjustments, hk, hv]
        rw [hstep, ih]
        simp [hk, hv, List.any_cons]
    · have hstep : applyAdjustments ((k, d) :: rest) v c =
          applyAdjustments rest v c := by
        simp [applyAdjustments, hk]
      rw [hstep, ih]
      simp [hk, List.any_cons]

lemma nsStage_flag_spec (fields : List (String × JValue))
    (v : List (String × Int)) (h : (nsStage fields v).2.2 = false) :
    (nsStage fields v).2.1 = nsWrites fields v := by
  unfold nsStage at h ⊢
  unfold nsWrites
  cases hj : JValue.jget fields "new_stats" with
  | jobj items =>
    simp only [hj] at h ⊢
    simpa using applyNewStats_flag_spec items v false h
  | jnull => rfl
  | jbool b => rfl
  | jint n => rfl
  | jstr s => rfl
  | jarr xs => rfl

lemma adjStage_flag_spec (fields : List (String × JValue))
    (v : List (String × Int)) (c : Bool) :
    (adjStage fields v c).2 = (c || adjWrites fields v) := by
  unfold adjStage adjWrites
  cases hj : JValue.jget fields "adjustments" with
  | jobj items =>
    simp only [hj]
    exact applyAdjustments_flag_spec items v c
  | jnull => simp
  | jbool b => simp
  | jint n => simp
  | jstr s => simp
  | jarr xs => simp

/-- Whether the `adjustments` stage would write depends only on which
channels exist, not on their values. -/
lemma adjWrites_congr (fields : List (String × JValue))
    {v v' : List (String × Int)} (h : keysOf v = keysOf v') :
    adjWrites fields v = adjWrites fields v' := by
  unfold adjWrites
  cases hj : JValue.jget fields "adjustments" with
  | jobj items => simp only [hasKey_congr h]
  | jnull => rfl
  | jbool b => rfl
  | jint n => rfl
  | jstr s => rfl
  | jarr xs => rfl

/-- The version dichotomy on the normal exit: the version is bumped by
exactly 1 when the merge performed at least one vitals assignment or
memory insertion, and is left unchanged otherwise. -/
lemma merge_ok_version_iff (fields : List (String × JValue))
    (st st' : PMState) (h : mergeProposal (.jobj fields) st = .ok st') :
    st'.version =
      (if performsWrite fields st.vitals = true then st.version + 1
       else st.version) := by
  simp only [mergeProposal] at h
  split at h
  · injection h
  · rename_i hflag
    split at h
    · injection h
    · rename_i adds hma
      injection h with h'
      subst h'
      have hflag' : (nsStage fields st.vitals).2.2 = false := by
        simpa using hflag
      have e1 := nsStage_flag_spec fields st.vitals hflag'
      have e2 := adjStage_flag_spec fields (nsStage fields st.vitals).1
        (nsStage fields st.vitals).2.1
      have e3 : adjWrites fields (nsStage fields st.vitals).1 =
          adjWrites fields st.vitals :=
        adjWrites_congr fields (nsStage_keys fields st.vitals)
      have e4 : memWrites fields = !adds.isEmpty := by
        unfold memWrites
        rw [hma]
      show (if ((adjStage fields (nsStage fields st.vitals).1
          (nsStage fields st.vitals).2.1).2 || !adds.isEmpty) = true then
            st.version + 1 else st.version) = _
      rw [e2, e1, e3, performsWrite, e4, Bool.or_assoc]

/-! ## Claim theorems -/

/-- C1: after every `update_from_events` call, every vitals channel is an
integer in [0,100] — an absolute value is stored clamped and a delta is
stored as the clamped sum — and in particular an absolute energy of 500
yields energy 100 while an absolute energy of -50 yields energy 0. -/
theorem C1_vitals_always_clamped :
    (∀ (events : List JValue) (st : PMState)
        (outcome : Except String RawOutput),
        vitalsInRange st.vitals →
        vitalsInRange (updateFromEvents events st outcome).2.vitals) ∧
    getVal (updateFromEvents [] initState
      (.ok (.rstr "\x7b\"new_stats\": \x7b\"energy\": 500\x7d\x7d"))).2.vitals
      "energy" = 100 ∧
    getVal (updateFromEvents [] initState
      (.ok (.rstr "\x7b\"new_stats\": \x7b\"energy\": -50\x7d\x7d"))).2.vitals
      "energy" = 0 := by
  refine ⟨?_, rfl, rfl⟩
  intro events st outcome hst
  cases outcome with
  | error msg => rw [update_snd_err]; exact hst
  | ok raw => rw [update_snd_ok]; exact merge_inRange _ _ hst

/-- Witness for C1: the clamping invariant applied at a concrete state and
a concrete out-of-range delta. -/
theorem C1_witness :
    vitalsInRange initState.vitals ∧
    vitalsInRange (updateFromEvents [] initState
      (.ok (.rstr "\x7b\"adjustments\": \x7b\"energy\": -250\x7d\x7d"))).2.vitals :=
  ⟨by decide, C1_vitals_always_clamped.1 [] initState _ (by decide)⟩

/-- C2 is false on the code: with both an absolute value and a delta for
the same channel, the delta is applied on top of the absolute value — the
claimed input yields resilience 0, not 40. -/
theorem C2_counterexample :
    getVal (updateFromEvents [] initState (.ok (.rstr
      "\x7b\"new_stats\": \x7b\"resilience\": 40\x7d, \"adjustments\": \x7b\"resilience\": -100\x7d\x7d"
      ))).2.vitals "resilience" = 0 ∧ (0 : Int) ≠ 40 :=
  ⟨rfl, by decide⟩

/-- C2 amended: when a proposal carries both an absolute target and a delta
for the same existing channel, the absolute value is applied first and the
delta is then applied on top of it, each write clamped: the channel ends at
clamp(clamp(a) + d), and the version bumps once. -/
theorem C2_amended_absolute_then_delta (st : PMState) (k : String)
    (a d : Int) (hk : hasKey st.vitals k = true) :
    mergeProposal (.jobj [("new_stats", .jobj [(k, .jint a)]),
        ("adjustments", .jobj [(k, .jint d)])]) st =
      .ok { vitals := setVal (setVal st.vitals k (clamp a)) k
              (clamp (clamp a + d)),
            memory := st.memory, version := st.version + 1 } ∧
    getVal (setVal (setVal st.vitals k (clamp a)) k (clamp (clamp a + d)))
      k = clamp (clamp a + d) := by
  have hk2 : hasKey (setVal st.vitals k (clamp a)) k = true := by
    rw [hasKey_congr (setVal_keys st.vitals k (clamp a))]
    exact hk
  have hb1 : ("new_stats" == "new_stats") = true := by decide
  have hb2 : ("new_stats" == "adjustments") = false := by decide
  have hb3 : ("adjustments" == "adjustments") = true := by decide
  have hb4 : ("new_stats" == "memory_additions") = false := by decide
  have hb5 : ("adjustments" == "memory_additions") = false := by decide
  have e1 : applyNewStats [(k, .jint a)] st.vitals false =
      (setVal st.vitals k (clamp a), true, false) := by
    simp [applyNewStats, hk, pyInt]
  have e2 : applyAdjustments [(k, .jint d)] (setVal st.vitals k (clamp a))
      true =
      (setVal (setVal st.vitals k (clamp a)) k (clamp (clamp a + d)),
        true) := by
    simp [applyAdjustments, hk2, pyInt, getVal_setVal st.vitals k (clamp a) hk]
  refine ⟨?_, getVal_setVal _ _ _ hk2⟩
  simp [mergeProposal, nsStage, adjStage, JValue.jget, memElems, hb2, hb4,
    hb5, e1, e2]

/-- Witness for C2: the amended law evaluated on the claim scenario
(absolute resilience 40, delta -100) from the initial state. -/
theorem C2_witness :
    hasKey initState.vitals "resilience" = true ∧
    mergeProposal (.jobj [("new_stats", .jobj [("resilience", .jint 40)]),
        ("adjustments", .jobj [("resilience", .jint (-100))])]) initState =
      .ok { vitals := setVal (setVal initState.vitals "resilience" (clamp 40))
              "resilience" (clamp (clamp 40 + -100)),
            memory := initState.memory,
            version := initState.version + 1 } :=
  ⟨by decide,
   (C2_amended_absolute_then_delta initState "resilience" 40 (-100)
     (by decide)).1⟩

/-- C3 is false on the code: writing a channel its current value (absolute
energy 100 on a fresh state) leaves vitals and memory unchanged in value
yet still increments the version. -/
theorem C3_counterexample :
    (updateFromEvents [] initState (.ok (.rstr
      "\x7b\"new_stats\": \x7b\"energy\": 100\x7d\x7d"))).2.vitals =
        initState.vitals ∧
    (updateFromEvents [] initState (.ok (.rstr
      "\x7b\"new_stats\": \x7b\"energy\": 100\x7d\x7d"))).2.memory =
        initState.memory ∧
    (updateFromEvents [] initState (.ok (.rstr
      "\x7b\"new_stats\": \x7b\"energy\": 100\x7d\x7d"))).2.version =
        initState.version + 1 :=
  ⟨rfl, rfl, rfl⟩

/-- C3 amended: on a call that completes its merge normally, the version
increments by exactly 1 if the merge performed at least one vitals
assignment or memory insertion — including an assignment rewriting a
channel to its current value — and is left unchanged otherwise (the
dichotomy, stated as one equation over `performsWrite`); in particular a
value change in vitals or memory always bumps it by exactly 1; on every
call the version moves by 0 or +1 and never decreases; the empty judgment
response is a strict no-op. -/
theorem C3_amended_version_semantics :
    (∀ (fields : List (String × JValue)) (st st' : PMState),
        mergeProposal (.jobj fields) st = .ok st' →
        st'.version =
          (if performsWrite fields st.vitals = true then st.version + 1
           else st.version)) ∧
    (∀ (parsed : JValue) (st st' : PMState),
        mergeProposal parsed st = .ok st' →
        (st'.vitals ≠ st.vitals ∨ st'.memory ≠ st.memory) →
        st'.version = st.version + 1) ∧
    (∀ (events : List JValue) (st : PMState)
        (outcome : Except String RawOutput),
        st.version ≤ (updateFromEvents events st outcome).2.version ∧
        (updateFromEvents events st outcome).2.version ≤ st.version + 1) ∧
    (∀ (events : List JValue) (st : PMState),
        updateFromEvents events st (.ok (.rstr "\x7b\x7d")) =
          (.jobj [], st)) := by
  refine ⟨merge_ok_version_iff, merge_ok_version_of_change, ?_, ?_⟩
  · intro events st outcome
    cases outcome with
    | error msg => rw [update_snd_err]; omega
    | ok raw =>
      rw [update_snd_ok]
      rcases merge_version_cases (parsedOfRaw raw) st with h | h <;> omega
  · intro events st
    rfl

/-- Witness for C3: the dichotomy applied to a concrete writing merge (a
memory insertion: version bumps) and to a concrete non-writing merge (an
unknown-channel adjustment: version unchanged), and the value-change law
applied to the former. -/
theorem C3_witness :
    (mergeProposal (.jobj [("memory_additions", .jarr [.jstr "x"])])
        initState =
      .ok { vitals := initState.vitals, memory := ["x"], version := 1 } ∧
      performsWrite [("memory_additions", .jarr [.jstr "x"])]
        initState.vitals = true ∧
      ({ vitals := initState.vitals, memory := ["x"], version := 1 }
          : PMState).version =
        (if performsWrite [("memory_additions", .jarr [.jstr "x"])]
            initState.vitals = true then initState.version + 1
         else initState.version) ∧
      ({ vitals := initState.vitals, memory := ["x"], version := 1 }
          : PMState).version = initState.version + 1) ∧
    (mergeProposal (.jobj [("adjustments", .jobj [("mood", .jint 5)])])
        initState = .ok initState ∧
      performsWrite [("adjustments", .jobj [("mood", .jint 5)])]
        initState.vitals = false ∧
      initState.version =
        (if performsWrite [("adjustments", .jobj [("mood", .jint 5)])]
            initState.vitals = true then initState.version + 1
         else initState.version)) :=
  ⟨⟨rfl, rfl,
    C3_amended_version_semantics.1
      [("memory_additions", .jarr [.jstr "x"])] initState
      { vitals := initState.vitals, memory := ["x"], version := 1 } rfl,
    C3_amended_version_semantics.2.1
      (.jobj [("memory_additions", .jarr [.jstr "x"])]) initState
      { vitals := initState.vitals, memory := ["x"], version := 1 } rfl
      (Or.inr (by decide))⟩,
   ⟨rfl, rfl,
    C3_amended_version_semantics.1
      [("adjustments", .jobj [("mood", .jint 5)])] initState initState
      rfl⟩⟩

/-- C4 is false on the code: a wrong-typed value inside `new_stats` aborts
the merge after earlier writes were already applied — the call returns an
error object but the state is not the state from before the call (energy
was already set to 50, with no version bump). -/
theorem C4_counterexample :
    isErrObj (updateFromEvents [] initState (.ok (.rstr
      "\x7b\"new_stats\": \x7b\"energy\": 50, \"resilience\": null\x7d\x7d"))).1
      = true ∧
    (updateFromEvents [] initState (.ok (.rstr
      "\x7b\"new_stats\": \x7b\"energy\": 50, \"resilience\": null\x7d\x7d"))).2
      ≠ initState ∧
    getVal (updateFromEvents [] initState (.ok (.rstr
      "\x7b\"new_stats\": \x7b\"energy\": 50, \"resilience\": null\x7d\x7d"))).2.vitals
      "energy" = 50 :=
  ⟨rfl, by decide, rfl⟩

/-- C4 amended: neither operation ever raises.  A remote-call failure
returns the error object with the state untouched; an internal merge
exception also returns an error object, never touches memory or the
version, and keeps vitals clamped, but may retain writes applied before the
abort; a non-dict proposal errors with the state untouched; and
`push_persona` substitutes narrator failures into the assessment text of a
well-formed result. -/
theorem C4_amended_failure_handling :
    (∀ (events : List JValue) (st : PMState) (msg : String),
        updateFromEvents events st (.error msg) = (jerr msg, st)) ∧
    (∀ (parsed : JValue) (st st' : PMState),
        mergeProposal parsed st = .error st' →
        st'.memory = st.memory ∧ st'.version = st.version ∧
        (vitalsInRange st.vitals → vitalsInRange st'.vitals)) ∧
    (∀ (events : List JValue) (st : PMState) (raw : RawOutput),
        (∀ fields, parsedOfRaw raw ≠ .jobj fields) →
        updateFromEvents events st (.ok raw) = (jerr mergeErrMsg, st)) ∧
    (∀ (id : String) (st : PMState) (now : String) (e : String),
        pushPersona id st now (.error e) =
          { payload_timestamp := now, payload_id := id, payload_state := st,
            assessment_raw := "AI assessment failed: " ++ e }) := by
  refine ⟨fun _ _ _ => rfl, ?_, ?_, fun _ _ _ _ => rfl⟩
  · intro parsed st st' h
    obtain ⟨h1, h2⟩ := merge_error_frame parsed st st' h
    refine ⟨h1, h2, fun hst => ?_⟩
    have hr := merge_inRange parsed st hst
    rw [h] at hr
    exact hr
  · intro events st raw hnd
    have hmerge : mergeProposal (parsedOfRaw raw) st = .error st := by
      cases hp : parsedOfRaw raw with
      | jobj fields => exact absurd hp (hnd fields)
      | jnull => rfl
      | jbool b => rfl
      | jint n => rfl
      | jstr s2 => rfl
      | jarr xs => rfl
    simp [updateFromEvents, hmerge]

/-- Witness for C4: the failure laws applied to a concrete merge abort and
a concrete list-shaped judgment. -/
theorem C4_witness :
    (mergeProposal (.jarr []) initState = .error initState ∧
      initState.memory = initState.memory ∧
      initState.version = initState.version ∧
      (vitalsInRange initState.vitals → vitalsInRange initState.vitals)) ∧
    updateFromEvents [] initState (.ok (.rlist [])) =
      (jerr mergeErrMsg, initState) :=
  ⟨⟨rfl, C4_amended_failure_handling.2.1 (.jarr []) initState initState rfl⟩,
   C4_amended_failure_handling.2.2.1 [] initState (.rlist [])
     (fun _fields h => JValue.noConfusion h)⟩

/-- C5 is false on the code: judgment text with no extractable JSON yields
the empty proposal, not an error marker (the state is indeed unchanged). -/
theorem C5_counterexample :
    updateFromEvents [] initState (.ok (.rstr
      "I\x27m not sure, maybe increase energy?")) = (.jobj [], initState) ∧
    isErrObj (.jobj []) = false :=
  ⟨rfl, rfl⟩

/-- C5 amended: when the judgment text contains no balanced JSON substring
and does not parse as JSON in its entirety, `update_from_events` returns
the empty proposal and leaves vitals, memory and version unchanged — a
silent no-op, never a raised error. -/
theorem C5_amended_no_json_noop (events : List JValue) (st : PMState)
    (raw : String) (h1 : findJsonSubstring raw = none)
    (h2 : jsonParse raw = none) :
    updateFromEvents events st (.ok (.rstr raw)) = (.jobj [], st) := by
  have hp : parseRaw raw = .jobj [] := by
    simp only [parseRaw, h1, h2]
  have hmerge : mergeProposal (parsedOfRaw (.rstr raw)) st = .ok st := by
    show mergeProposal (parseRaw raw) st = .ok st
    rw [hp]
    exact merge_empty st
  show (match mergeProposal (parsedOfRaw (.rstr raw)) st with
    | .ok st' => (parsedOfRaw (.rstr raw), st')
    | .error st' => (jerr mergeErrMsg, st')) = (.jobj [], st)
  rw [hmerge]
  show (parseRaw raw, st) = (.jobj [], st)
  rw [hp]

/-- Witness for C5: the no-op law applied to the claim string from the
initial state. -/
theorem C5_witness :
    findJsonSubstring "I\x27m not sure, maybe increase energy?" = none ∧
    jsonParse "I\x27m not sure, maybe increase energy?" = none ∧
    updateFromEvents [] initState (.ok (.rstr
      "I\x27m not sure, maybe increase energy?")) = (.jobj [], initState) :=
  ⟨rfl, rfl,
   C5_amended_no_json_noop [] initState
     "I\x27m not sure, maybe increase energy?" rfl rfl⟩

/-- C6 is false on the code: a wrong-typed value inside `new_stats` for a
known channel is not dropped silently — it aborts the whole update with an
error return, skipping the later memory stage entirely. -/
theorem C6_counterexample :
    isErrObj (updateFromEvents [] initState (.ok (.rstr
      "\x7b\"new_stats\": \x7b\"resilience\": null\x7d, \"memory_additions\": [\"note\"]\x7d"
      ))).1 = true ∧
    (updateFromEvents [] initState (.ok (.rstr
      "\x7b\"new_stats\": \x7b\"resilience\": null\x7d, \"memory_additions\": [\"note\"]\x7d"
      ))).2 = initState :=
  ⟨rfl, rfl⟩

/-- C6 amended: unknown channel names and wrong-typed top-level fields are
dropped silently (no new channel is ever created on any exit), wrong-typed
values inside `adjustments` are skipped, and list elements of
`memory_additions` are str()-coerced rather than dropped — but a
wrong-typed value inside `new_stats` for an existing channel raises
internally and aborts the update with an error return. -/
theorem C6_amended_validation :
    (∀ (st : PMState) (k : String) (d : Int), hasKey st.vitals k = false →
        mergeProposal (.jobj [("adjustments", .jobj [(k, .jint d)])]) st =
          .ok st) ∧
    (∀ (parsed : JValue) (st : PMState),
        keysOf (outState (mergeProposal parsed st)).vitals =
          keysOf st.vitals) ∧
    (∀ (st : PMState) (k : String) (v : JValue), pyInt v = none →
        mergeProposal (.jobj [("adjustments", .jobj [(k, v)])]) st =
          .ok st) ∧
    (∀ (st : PMState) (v : JValue), (∀ items, v ≠ .jobj items) →
        mergeProposal (.jobj [("new_stats", v)]) st = .ok st) ∧
    (∀ (st : PMState) (xs : List JValue),
        mergeProposal (.jobj [("memory_additions", .jarr xs)]) st =
          .ok { vitals := st.vitals,
                memory := (xs.map pyStr).reverse ++ st.memory,
                version := if xs.isEmpty then st.version
                           else st.version + 1 }) := by
  have hb1 : ("adjustments" == "new_stats") = false := by decide
  have hb2 : ("adjustments" == "memory_additions") = false := by decide
  have hb3 : ("new_stats" == "adjustments") = false := by decide
  have hb4 : ("new_stats" == "memory_additions") = false := by decide
  refine ⟨?_, merge_keys, ?_, ?_, merge_memadds_arr⟩
  · intro st k d hk
    simp [mergeProposal, nsStage, adjStage, JValue.jget, memElems, hb1, hb2,
      applyAdjustments, hk]
  · intro st k v hv
    by_cases hk : hasKey st.vitals k = true
    · simp [mergeProposal, nsStage, adjStage, JValue.jget, memElems, hb1,
        hb2, applyAdjustments, hk, hv]
    · simp [mergeProposal, nsStage, adjStage, JValue.jget, memElems, hb1,
        hb2, applyAdjustments, hk]
  · intro st v hv
    cases v with
    | jobj items => exact absurd rfl (hv items)
    | jnull => simp [mergeProposal, nsStage, adjStage, JValue.jget, memElems,
        hb3, hb4]
    | jbool b => simp [mergeProposal, nsStage, adjStage, JValue.jget,
        memElems, hb3, hb4]
    | jint n => simp [mergeProposal, nsStage, adjStage, JValue.jget,
        memElems, hb3, hb4]
    | jstr s2 => simp [mergeProposal, nsStage, adjStage, JValue.jget,
        memElems, hb3, hb4]
    | jarr xs => simp [mergeProposal, nsStage, adjStage, JValue.jget,
        memElems, hb3, hb4]

/-- Witness for C6: the validation laws applied to the claim scenario
(unknown channel `mood`), a wrong-typed adjustment value, and a non-dict
`new_stats` field. -/
theorem C6_witness :
    (hasKey initState.vitals "mood" = false ∧
      mergeProposal (.jobj [("adjustments", .jobj [("mood", .jint (-10))])])
        initState = .ok initState) ∧
    (pyInt (.jarr []) = none ∧
      mergeProposal (.jobj [("adjustments", .jobj [("energy", .jarr [])])])
        initState = .ok initState) ∧
    mergeProposal (.jobj [("new_stats", .jstr "x")]) initState =
      .ok initState :=
  ⟨⟨by decide, C6_amended_validation.1 initState "mood" (-10) (by decide)⟩,
   ⟨rfl, C6_amended_validation.2.2.1 initState "energy" (.jarr []) rfl⟩,
   C6_amended_validation.2.2.2.1 initState (.jstr "x")
     (fun _items h => JValue.noConfusion h)⟩

/-- C7: the local scorer is pure and matches the section 4.1 reference —
damage is the capped sum of the per-record penalties, count is the record
count, signals are the fired descriptions de-duplicated by exact text with
first occurrences kept in order; the empty input and the two concrete
scenarios (the claim record scoring 23 with three distinct signals, and an
unparseable timestamp skipping the hour penalty without raising) evaluate
as required. -/
theorem C7_local_scorer_spec :
    (∀ commits, (calculate_burnout_score_locally commits).damage =
        min 100 (commits.map specRecordPenalty).sum) ∧
    (∀ commits, (calculate_burnout_score_locally commits).count =
        commits.length) ∧
    (∀ commits,
        (calculate_burnout_score_locally commits).signals =
          dedupFirst ((commits.map (fun c => (recordScore c).2)).flatten) ∧
        ((calculate_burnout_score_locally commits).signals).Nodup ∧
        (∀ x, x ∈ (calculate_burnout_score_locally commits).signals ↔
            x ∈ (commits.map (fun c => (recordScore c).2)).flatten)) ∧
    calculate_burnout_score_locally [] =
      { damage := 0, signals := [], count := 0 } ∧
    calculate_burnout_score_locally
        [{ message := some "fix", date := some "2024-01-01T02:00:00Z",
           author_date := none }] =
      { damage := 23,
        signals := ["Zombie commit at hour 2", "Short commit message",
          "Found keyword \x27fix\x27 in message"], count := 1 } ∧
    calculate_burnout_score_locally
        [{ message := some "hello", date := some "not-a-date",
           author_date := none }] =
      { damage := 0, signals := [], count := 1 } := by
  refine ⟨calc_damage, calc_count, ?_, rfl, rfl, rfl⟩
  intro commits
  refine ⟨calc_signals commits, ?_, ?_⟩
  · rw [calc_signals]
    exact dedupFirstAux_nodup _ _
  · intro x
    rw [calc_signals]
    exact dedupFirst_mem _ x

/-- C8: proposal parsing takes the first balanced JSON object or array
substring — characterised by the first-opening-bracket scan whose net
bracket depth over both bracket pairs first returns to zero — then falls
back to parsing the entire text, and finally to the empty object. -/
theorem C8_extraction_pipeline :
    (∀ raw, parseRaw raw = parseRawSpec raw) ∧
    (∀ (cs : List Char) (d : Int) (n : Nat),
        firstZero cs d = some n ↔
          (n < cs.length ∧ d + depthAfter cs (n + 1) = 0 ∧
            ∀ m < n, d + depthAfter cs (m + 1) ≠ 0)) :=
  ⟨parseRaw_eq_spec, firstZero_characterisation⟩

/-- C9: memory is mutated only by prepending — on a completed merge the new
memory is exactly the str()-coerced additions, each inserted at the front
in order (the last-listed addition ends up nearest the front), followed by
the previous entries unchanged; an aborted merge leaves memory untouched. -/
theorem C9_memory_only_prepended :
    (∀ (fields : List (String × JValue)) (st st' : PMState),
        mergeProposal (.jobj fields) st = .ok st' →
        ∃ adds, memElems (JValue.jget fields "memory_additions") =
            some adds ∧
          st'.memory = adds.reverse ++ st.memory) ∧
    (∀ (parsed : JValue) (st st' : PMState),
        mergeProposal parsed st = .error st' → st'.memory = st.memory) ∧
    (∀ (st : PMState) (xs : List String),
        mergeProposal (.jobj [("memory_additions",
            .jarr (xs.map JValue.jstr))]) st =
          .ok { vitals := st.vitals, memory := xs.reverse ++ st.memory,
                version := if xs.isEmpty then st.version
                           else st.version + 1 }) := by
  refine ⟨merge_ok_memory, ?_, ?_⟩
  · intro parsed st st' h
    exact (merge_error_frame parsed st st' h).1
  · intro st xs
    have h := merge_memadds_arr st (xs.map JValue.jstr)
    have hmap : (xs.map JValue.jstr).map pyStr = xs := by
      rw [List.map_map]
      have hid : (pyStr ∘ JValue.jstr) = id := funext (fun a => rfl)
      rw [hid, List.map_id]
    have hemp : (xs.map JValue.jstr).isEmpty = xs.isEmpty := by
      cases xs <;> rfl
    rw [h, hmap, hemp]

/-- Witness for C9: the prepend law applied to a two-element addition list
from the initial state. -/
theorem C9_witness :
    mergeProposal (.jobj [("memory_additions",
        .jarr [.jstr "a", .jstr "b"])]) initState =
      .ok { vitals := initState.vitals, memory := ["b", "a"],
            version := 1 } ∧
    (∃ adds, memElems (JValue.jget
        [("memory_additions", .jarr [.jstr "a", .jstr "b"])]
        "memory_additions") = some adds ∧
      (["b", "a"] : List String) = adds.reverse ++ initState.memory) :=
  ⟨rfl,
   C9_memory_only_prepended.1
     [("memory_additions", .jarr [.jstr "a", .jstr "b"])] initState
     { vitals := initState.vitals, memory := ["b", "a"], version := 1 }
     rfl⟩

/-- C10: a non-empty string-valued `memory_additions` is iterated character
by character, each character prepended as its own entry with the version
incremented; elements of a list-valued `memory_additions` are coerced with
str(), so non-string elements are stored as their string rendering. -/
theorem C10_memory_string_iterated :
    (∀ (st : PMState) (s : String), s ≠ "" →
        mergeProposal (.jobj [("memory_additions", .jstr s)]) st =
          .ok { vitals := st.vitals,
                memory := (s.toList.map (fun c => String.mk [c])).reverse ++
                  st.memory,
                version := st.version + 1 }) ∧
    (updateFromEvents [] initState (.ok (.rstr
        "\x7b\"memory_additions\": \"abc\"\x7d"))).2 =
      { vitals := initState.vitals, memory := ["c", "b", "a"],
        version := 1 } ∧
    (updateFromEvents [] initState (.ok (.rstr
        "\x7b\"memory_additions\": [\"x\", 7, true]\x7d"))).2 =
      { vitals := initState.vitals, memory := ["True", "7", "x"],
        version := 1 } :=
  ⟨merge_memadds_str, rfl, rfl⟩

/-- Witness for C10: the character-iteration law applied to the string
"abc" from the initial state. -/
theorem C10_witness :
    ("abc" : String) ≠ "" ∧
    mergeProposal (.jobj [("memory_additions", .jstr "abc")]) initState =
      .ok { vitals := initState.vitals, memory := ["c", "b", "a"],
            version := 1 } :=
  ⟨by decide, C10_memory_string_iterated.1 initState "abc" (by decide)⟩
